import Mathlib

/-!
Shallow embedding of the tech_tree Rust library (src/lib.rs).

Modelling conventions:
- Rust `String` / `&str` values are modelled as lists of characters (`Str`).
- `HashSet<String>` is modelled as a `List Str` used with set semantics
  (membership tests only; insertion is a no-op when the element is present).
- `HashMap<String, Technology>` is modelled as a `List Technology`; the list
  order stands for the map's (arbitrary) iteration order, and key lookup
  returns the first entry with a matching id.  A well-formed map has no
  duplicate keys, which appears as a `Nodup` hypothesis where it matters.
- `u32` values are modelled as `Nat`; the `i32` arithmetic inside the path
  search is modelled as wrapping 32-bit arithmetic over `Int` (release-mode
  Rust semantics).
- The panic reachable inside `deserialize` (an unchecked index) is modelled
  by returning `none` from the deserializer.
-/

abbrev Str := List Char

inductive Prerequisites where
  | And : List Str → Prerequisites
  | Or : List Str → Prerequisites
deriving DecidableEq

structure Technology where
  id : Str
  name : Str
  description : Str
  prerequisites : Prerequisites
  cost : Nat
deriving DecidableEq

abbrev Registry := List Technology

/-- Key lookup in the technology map (`self.technologies.get(tech_id)`). -/
def lookupTech (reg : Registry) (techId : Str) : Option Technology :=
  reg.find? (fun t => decide (t.id = techId))

/-- The id set carried by either prerequisite variant. -/
def prereqIds (t : Technology) : List Str :=
  match t.prerequisites with
  | .And ps => ps
  | .Or ps => ps

/-- Rust `TechnologyTree::is_unlockable`: conjunctive prerequisites must all be
unlocked, disjunctive ones need a non-empty intersection with the unlocked
set, and in both cases the cost must fit in the science-point budget.  An id
that is not in the map yields `false`. -/
def isUnlockable (reg : Registry) (techId : Str) (unlocked : List Str)
    (sciencePoints : Nat) : Bool :=
  match lookupTech reg techId with
  | some tech =>
    match tech.prerequisites with
    | .And prereqs =>
      prereqs.all (fun p => decide (p ∈ unlocked)) && decide (tech.cost ≤ sciencePoints)
    | .Or prereqs =>
      prereqs.any (fun p => decide (p ∈ unlocked)) && decide (tech.cost ≤ sciencePoints)
  | none => false

/-- Rust `HashSet::insert` on the unlocked set. -/
def hsInsert (x : Str) (s : List Str) : List Str :=
  if x ∈ s then s else x :: s

/-- Rust `TechnologyTree::unlock_technology`: inserts the id into the unlocked set
and reports `true` exactly when the technology was unlockable. -/
def unlockTechnology (reg : Registry) (techId : Str) (unlocked : List Str)
    (sciencePoints : Nat) : Bool × List Str :=
  if isUnlockable reg techId unlocked sciencePoints then
    (true, hsInsert techId unlocked)
  else (false, unlocked)

/-- Rust `TechnologyTree::get_unlockable_technologies`: the map keys filtered by
`is_unlockable`, in map iteration order. -/
def getUnlockableTechnologies (reg : Registry) (unlocked : List Str)
    (sciencePoints : Nat) : List Str :=
  (reg.map (fun t => t.id)).filter
    (fun techId => isUnlockable reg techId unlocked sciencePoints)

/-- The error text of `remove_technology`:
`format!("Technology {} is a prerequisite for {}", technology_id, tech.id)`. -/
def depMsg (removedId blockerId : Str) : Str :=
  "Technology ".toList ++ removedId ++ " is a prerequisite for ".toList ++ blockerId

/-- Rust `TechnologyTree::remove_technology`: scans every technology in the map
(in iteration order) and fails on the first one whose prerequisite set
contains the id; otherwise deletes the key. -/
def removeTechnology (reg : Registry) (technologyId : Str) : Except Str Registry :=
  match reg.find? (fun t => decide (technologyId ∈ prereqIds t)) with
  | some blocker => .error (depMsg technologyId blocker.id)
  | none => .ok (reg.filter (fun t => decide (¬ t.id = technologyId)))

/-- Lexicographic byte order on strings (Rust `String` ordering), used to
state the sortedness part of the `list_unlockable` claim. -/
def strLe : Str → Str → Bool
  | [], _ => true
  | _ :: _, [] => false
  | a :: s1, b :: s2 => if a = b then strLe s1 s2 else decide (a < b)

/-! Concrete inputs used by witnesses and counterexamples. -/

def techW : Technology := ⟨['w'], [], [], Prerequisites.And [['p']], 10⟩

def regW : Registry := [techW]

def techO : Technology := ⟨['o'], [], [], Prerequisites.Or [['p'], ['q']], 10⟩

def regO : Registry := [techO]

def techSelf : Technology := ⟨['a'], [], [], Prerequisites.And [['a']], 0⟩

def regSelf : Registry := [techSelf]

def techDepA : Technology := ⟨['a'], [], [], Prerequisites.And [], 0⟩

def techDepB : Technology := ⟨['b'], [], [], Prerequisites.And [['a']], 0⟩

def regDep : Registry := [techDepA, techDepB]

def techFreeB : Technology := ⟨['b'], [], [], Prerequisites.And [], 0⟩

def techFreeA : Technology := ⟨['a'], [], [], Prerequisites.And [], 0⟩

def regBA : Registry := [techFreeB, techFreeA]

/-! Codec definitions (`serialize` / `deserialize`). -/

/-- Decimal digit character for a value below ten. -/
def digitChar : Nat → Char
  | 0 => '0'
  | 1 => '1'
  | 2 => '2'
  | 3 => '3'
  | 4 => '4'
  | 5 => '5'
  | 6 => '6'
  | 7 => '7'
  | 8 => '8'
  | _ => '9'

/-- Most-significant-first decimal digits of a positive number; the first
argument is structural fuel, sufficient whenever it is at least the value. -/
def natToStrAux : Nat → Nat → Str
  | 0, _ => []
  | fuel + 1, n => if n = 0 then [] else natToStrAux fuel (n / 10) ++ [digitChar (n % 10)]

/-- Rust `format!` display of a `u32` value. -/
def natToStr (n : Nat) : Str :=
  if n = 0 then ['0'] else natToStrAux n n

def digitVal (c : Char) : Nat := c.toNat - 48

/-- Rust `str::parse::<u32>()`: optional leading plus sign, at least one
character, all digits, value below two to the thirty-second. -/
def parseU32 (s : Str) : Option Nat :=
  let ds := if s.head? = some '+' then s.tail else s
  if ds.isEmpty then none
  else if ds.all (fun c => c.isDigit) then
    let v := ds.foldl (fun a c => a * 10 + digitVal c) 0
    if v < 4294967296 then some v else none
  else none

/-- Rust `str::split(sep)`: splitting the empty string yields one empty
piece; every separator occurrence starts a new piece. -/
def splitOnChar (sep : Char) : Str → List Str
  | [] => [[]]
  | c :: rest =>
    match splitOnChar sep rest with
    | [] => [[]]
    | h :: t => if c = sep then [] :: h :: t else (c :: h) :: t

/-- Rust `Vec::join(sep)` over chunks of characters. -/
def joinSep (sep : Char) : List Str → Str
  | [] => []
  | [x] => x
  | x :: y :: rest => x ++ sep :: joinSep sep (y :: rest)

/-- Drop one carriage return from the end of a newline-terminated segment. -/
def stripCR (l : Str) : Str :=
  if l.getLast? = some '\r' then l.dropLast else l

/-- Segments produced by `str::lines()` from the newline-split pieces: a
final empty piece (optional trailing newline) is dropped, the final piece is
kept verbatim, and every newline-terminated piece loses one trailing
carriage return. -/
def rustLinesAux : List Str → List Str
  | [] => []
  | [l] => if l.isEmpty then [] else [l]
  | l :: l2 :: rest => stripCR l :: rustLinesAux (l2 :: rest)

/-- Rust `str::lines()`. -/
def rustLines (s : Str) : List Str :=
  rustLinesAux (splitOnChar '\n' s)

/-- The prerequisite field: `And:` or `Or:` followed by the comma-joined
prerequisite ids. -/
def serializePrereqs : Prerequisites → Str
  | .And set => "And".toList ++ ':' :: joinSep ',' set
  | .Or set => "Or".toList ++ ':' :: joinSep ',' set

/-- One line of `TechnologyTree::serialize`:
`id;name;description;kind:prereqs;cost`. -/
def serializeLine (tech : Technology) : Str :=
  tech.id ++ ';' :: tech.name ++ ';' :: tech.description ++ ';' ::
    serializePrereqs tech.prerequisites ++ ';' :: natToStr tech.cost

/-- Rust `TechnologyTree::serialize`: one line per technology in map iteration
order, joined by newlines. -/
def serialize (reg : Registry) : Str :=
  joinSep '\n' (reg.map serializeLine)

/-- One line of `deserialize`.  `none` models the Rust panic caused by the
unchecked `prereq_parts[1]` index (a five-field line whose prerequisite
field contains no colon); `some none` is a silently skipped line;
`some (some t)` is a parsed technology. -/
def parseLine (line : Str) : Option (Option Technology) :=
  match splitOnChar ';' line with
  | [techId, name, description, prereqs, cost] =>
    match splitOnChar ':' prereqs with
    | kind :: listPart :: _ =>
      let prereqSet := (splitOnChar ',' listPart).filter (fun s => ¬ s.isEmpty)
      if kind = "And".toList then
        some (some ⟨techId, name, description, .And prereqSet, (parseU32 cost).getD 0⟩)
      else if kind = "Or".toList then
        some (some ⟨techId, name, description, .Or prereqSet, (parseU32 cost).getD 0⟩)
      else some none
    | _ => none
  | _ => some none

/-- Rust `HashMap::insert` keyed by id: overwrite any existing record. -/
def mapInsert (reg : Registry) (t : Technology) : Registry :=
  reg.filter (fun x => decide (¬ x.id = t.id)) ++ [t]

/-- The line loop of `deserialize`; `none` models a panic aborting it. -/
def deserializeGo : List Str → Registry → Option Registry
  | [], acc => some acc
  | l :: rest, acc =>
    match parseLine l with
    | none => none
    | some none => deserializeGo rest acc
    | some (some t) => deserializeGo rest (mapInsert acc t)

/-- Rust `TechnologyTree::deserialize`; the result `none` models a panic. -/
def deserialize (data : Str) : Option Registry :=
  deserializeGo (rustLines data) []

/-- Freedom from the unescapable delimiter characters of the text format. -/
def cleanStr (s : Str) : Prop :=
  ¬ ';' ∈ s ∧ ¬ ':' ∈ s ∧ ¬ ',' ∈ s ∧ ¬ '\n' ∈ s

instance cleanStrDecidable (s : Str) : Decidable (cleanStr s) := by
  unfold cleanStr
  infer_instance

/-- A five-field line whose prerequisite field has no colon: `deserialize`
panics on it (unchecked index). -/
def badLine : Str := "a;b;c;And;5".toList

def techRound : Technology := ⟨['t'], ['n'], ['d'], Prerequisites.And [['x'], ['y']], 7⟩

def regRound : Registry := [techRound]

/-- A technology whose prerequisite set holds the empty string: its id,
name and description are clean, yet the round trip silently drops the
empty prerequisite id. -/
def techEmptyPre : Technology := ⟨['t'], ['n'], ['d'], Prerequisites.And [[]], 7⟩

def regEmptyPre : Registry := [techEmptyPre]

def techEmptyPre' : Technology := ⟨['t'], ['n'], ['d'], Prerequisites.And [], 7⟩

/-- The hypotheses under which the text format can round-trip a technology:
delimiter-free id, name, description and prerequisite ids, non-empty
prerequisite ids, and a cost that fits in a `u32`. -/
def cleanTech (t : Technology) : Prop :=
  cleanStr t.id ∧ cleanStr t.name ∧ cleanStr t.description ∧
  (∀ p ∈ prereqIds t, p ≠ [] ∧ cleanStr p) ∧ t.cost < 4294967296

instance cleanTechDecidable (t : Technology) : Decidable (cleanTech t) := by
  unfold cleanTech
  infer_instance

/-! Path-search definitions (`get_technology_path`). -/

/-- Wrapping 32-bit signed interpretation of an integer (release-mode Rust
`i32` arithmetic and `u32 as i32` casts). -/
def wrap32 (z : Int) : Int :=
  (z + 2147483648) % 4294967296 - 2147483648

/-- The heap entries of the search: a technology id and the (negated,
wrapped) accumulated cost used for ordering only. -/
structure Node where
  tech_id : Str
  cost : Int
deriving DecidableEq

/-- Rust `BinaryHeap::pop` under the reversed `Ord` of the source: extracts an
entry whose stored cost field is minimal (ties broken towards the front). -/
def popMin : List Node → Option (Node × List Node)
  | [] => none
  | n :: rest =>
    match popMin rest with
    | none => some (n, [])
    | some (m, rest') => if n.cost ≤ m.cost then some (n, rest) else some (m, n :: rest')

/-- Rust `HashMap::get` on the predecessor map (first entry wins; insertion
conses, so the newest entry for a key shadows older ones). -/
def lookupA : List (Str × Str) → Str → Option Str
  | [], _ => none
  | e :: rest, x => if e.1 = x then some e.2 else lookupA rest x

/-- The path-reconstruction loop: follow predecessor links from the target,
collecting each predecessor, and reverse the collected sequence.  The fuel
bounds the walk; it is always sufficient at the call site. -/
def buildPath (parent : List (Str × Str)) : Nat → Str → List Str → List Str
  | 0, _, path => path.reverse
  | fuel + 1, node, path =>
    match lookupA parent node with
    | none => path.reverse
    | some p => buildPath parent fuel p (path ++ [p])

/-- One neighbour inspection of the search: a technology that is not
already unlocked, is eligible under the original snapshot, and is not yet
visited gets its predecessor recorded and is pushed with the accumulated
cost (negated, in wrapping 32-bit arithmetic, as in the source). -/
def expandEntry (reg : Registry) (unlockedL : List Str) (pts : Nat)
    (visited : List Str) (curId : Str) (curCost : Int)
    (st : List Node × List (Str × Str)) (t : Technology) :
    List Node × List (Str × Str) :=
  if ¬ t.id ∈ unlockedL ∧ isUnlockable reg t.id unlockedL pts = true ∧ ¬ t.id ∈ visited then
    (st.1 ++ [⟨t.id, wrap32 (-(wrap32 (curCost + wrap32 (t.cost : Int))))⟩],
      (t.id, curId) :: st.2)
  else st

/-- The main search loop of `get_technology_path`: pop an entry, skip it if
already visited, otherwise visit it, return the reconstructed path if it is
the target, and otherwise record and push all currently eligible
not-yet-visited, not-unlocked technologies.  The fuel bounds the iteration
count; the initial fuel chosen in `getTechnologyPath` is always
sufficient. -/
def pathLoop (reg : Registry) (unlockedL : List Str) (pts : Nat) (target : Str) :
    Nat → List Node → List (Str × Str) → List Str → Option (List Str)
  | 0, _, _, _ => none
  | fuel + 1, heap, parent, visited =>
    match popMin heap with
    | none => none
    | some (cur, heap') =>
      if cur.tech_id ∈ visited then
        pathLoop reg unlockedL pts target fuel heap' parent visited
      else
        if cur.tech_id = target then
          some (buildPath parent (visited.length + 1) target [])
        else
          let st := reg.foldl
            (expandEntry reg unlockedL pts (cur.tech_id :: visited) cur.tech_id
              (wrap32 (-cur.cost)))
            (heap', parent)
          pathLoop reg unlockedL pts target fuel st.1 st.2 (cur.tech_id :: visited)

/-- Rust `TechnologyTree::get_technology_path`: seed the frontier with every
unlocked id at cost zero and run the search. -/
def getTechnologyPath (reg : Registry) (target : Str) (unlockedL : List Str)
    (pts : Nat) : Option (List Str) :=
  pathLoop reg unlockedL pts target
    (unlockedL.length + (unlockedL.length + reg.length) * (reg.length + 1) + 1)
    (unlockedL.map (fun t => ⟨t, 0⟩)) [] []

/-- Concrete pathfinder inputs for witnesses and counterexamples. -/
def pathTechW : Technology := ⟨['w'], [], [], Prerequisites.And [['p']], 1⟩

def pathReg : Registry := [pathTechW]

/-! Proof-side notions for the path search: the fixed-snapshot eligibility
of a not-yet-unlocked technology, the expansion condition, the loop
invariant and the termination potential. -/

/-- A technology id the search may newly discover: not already unlocked and
eligible under the original snapshot. -/
abbrev eligNew (reg : Registry) (unlockedL : List Str) (pts : Nat) (n : Str) : Prop :=
  ¬ n ∈ unlockedL ∧ isUnlockable reg n unlockedL pts = true

/-- The ids stored in the registry, in iteration order. -/
def regIds (reg : Registry) : List Str :=
  reg.map (fun t => t.id)

/-- The condition under which the neighbour loop records and pushes a
technology. -/
abbrev econd (reg : Registry) (unlockedL : List Str) (pts : Nat) (visited : List Str)
    (t : Technology) : Prop :=
  ¬ t.id ∈ unlockedL ∧ isUnlockable reg t.id unlockedL pts = true ∧ ¬ t.id ∈ visited

/-- How many ids the search can still visit. -/
def remaining (reg : Registry) (unlockedL visited : List Str) : Nat :=
  (((unlockedL ++ regIds reg).dedup).filter (fun x => decide (¬ x ∈ visited))).length

/-- Upper bound on the number of loop iterations still possible. -/
def loopPotential (reg : Registry) (unlockedL : List Str) (heap : List Node)
    (visited : List Str) : Nat :=
  heap.length + remaining reg unlockedL visited * (reg.length + 1)

/-- The invariant relating the frontier, the predecessor map and the
visited set throughout the search loop. -/
structure LoopInv (reg : Registry) (unlockedL : List Str) (pts : Nat)
    (heap : List Node) (parent : List (Str × Str)) (visited : List Str) : Prop where
  h1 : ∀ nd ∈ heap, nd.tech_id ∈ unlockedL ∨ eligNew reg unlockedL pts nd.tech_id
  h2 : ∀ nd ∈ heap, nd.tech_id ∈ unlockedL ∨ (lookupA parent nd.tech_id).isSome = true
  p1 : ∀ e ∈ parent, ¬ e.1 ∈ unlockedL ∧ e.2 ∈ visited
  p2 : ∀ k v, k ∈ visited → lookupA parent k = some v → ∃ s, (k :: s) <:+ visited ∧ v ∈ s
  p3 : ∀ k ∈ visited, ¬ k ∈ unlockedL → (lookupA parent k).isSome = true
  v1 : visited.Nodup
  v2 : ∀ k ∈ visited, k ∈ unlockedL ∨ eligNew reg unlockedL pts k

/-! END OF DEFINITIONS (part 1) -/

/-! Helper lemmas about the unlocked-set and map primitives. -/

theorem mem_hsInsert (x y : Str) (s : List Str) : x ∈ hsInsert y s ↔ x = y ∨ x ∈ s := by
  unfold hsInsert
  split
  · constructor
    · exact fun h => Or.inr h
    · rintro (rfl | h)
      · assumption
      · assumption
  · exact List.mem_cons

theorem isUnlockable_mono (reg : Registry) (t : Str) (pts : Nat) (u u' : List Str)
    (hsub : ∀ x ∈ u, x ∈ u') (h : isUnlockable reg t u pts = true) :
    isUnlockable reg t u' pts = true := by
  unfold isUnlockable at h ⊢
  cases hlook : lookupTech reg t with
  | none =>
    rw [hlook] at h
    exact absurd h (by simp)
  | some tech =>
    rw [hlook] at h
    dsimp only at h ⊢
    cases hpre : tech.prerequisites with
    | And ps =>
      rw [hpre] at h
      dsimp only at h ⊢
      simp only [List.all_eq_true, Bool.and_eq_true, decide_eq_true_eq] at h ⊢
      exact ⟨fun p hp => hsub p (h.1 p hp), h.2⟩
    | Or ps =>
      rw [hpre] at h
      dsimp only at h ⊢
      simp only [List.any_eq_true, Bool.and_eq_true, decide_eq_true_eq] at h ⊢
      obtain ⟨⟨p, hp, hpu⟩, hc⟩ := h
      exact ⟨⟨p, hp, hsub p hpu⟩, hc⟩

/-- C1: for a technology present in the registry with conjunctive
prerequisites P, `is_unlockable` is true iff P is a subset of the unlocked
set and the cost is within the budget; an id absent from the registry yields
`false` rather than an error. -/
theorem C1_conjunctive_eligibility (reg : Registry) (t : Str) (unlocked : List Str)
    (points : Nat) :
    (∀ tech P, lookupTech reg t = some tech → tech.prerequisites = .And P →
      (isUnlockable reg t unlocked points = true ↔
        ((∀ p ∈ P, p ∈ unlocked) ∧ tech.cost ≤ points))) ∧
    (lookupTech reg t = none → isUnlockable reg t unlocked points = false) := by
  constructor
  · intro tech P hlook hpre
    unfold isUnlockable
    rw [hlook]
    dsimp only
    rw [hpre]
    dsimp only
    simp [List.all_eq_true]
  · intro hlook
    unfold isUnlockable
    rw [hlook]

/-- Witness for C1: a conjunctive technology with its single prerequisite
unlocked and an affordable cost is unlockable. -/
theorem C1_conjunctive_eligibility_witness :
    isUnlockable regW (['w']) [['p']] 15 = true := by
  have h := (C1_conjunctive_eligibility regW (['w']) [['p']] 15).1 techW [['p']]
    (by decide) (by decide)
  exact h.mpr (by decide)

/-- C2: for a technology present in the registry with disjunctive
prerequisites P, `is_unlockable` is true iff P meets the unlocked set and the
cost is within the budget; with empty P the result is always false. -/
theorem C2_disjunctive_eligibility (reg : Registry) (t : Str) (unlocked : List Str)
    (points : Nat) :
    (∀ tech P, lookupTech reg t = some tech → tech.prerequisites = .Or P →
      (isUnlockable reg t unlocked points = true ↔
        ((∃ p ∈ P, p ∈ unlocked) ∧ tech.cost ≤ points))) ∧
    (∀ tech, lookupTech reg t = some tech → tech.prerequisites = .Or [] →
      isUnlockable reg t unlocked points = false) := by
  constructor
  · intro tech P hlook hpre
    unfold isUnlockable
    rw [hlook]
    dsimp only
    rw [hpre]
    dsimp only
    simp [List.any_eq_true]
  · intro tech hlook hpre
    unfold isUnlockable
    rw [hlook]
    dsimp only
    rw [hpre]
    dsimp only
    simp

/-- Witness for C2: a disjunctive technology with one of its prerequisites
unlocked and an affordable cost is unlockable. -/
theorem C2_disjunctive_eligibility_witness :
    isUnlockable regO (['o']) [['q']] 15 = true := by
  have h := (C2_disjunctive_eligibility regO (['o']) [['q']] 15).1 techO [['p'], ['q']]
    (by decide) (by decide)
  exact h.mpr (by decide)

/-- C6 counterexample: a technology that lists itself among its own
prerequisites blocks its own removal, although no technology with a
different id references it; the claim as stated says removal must succeed. -/
theorem C6_remove_counterexample :
    (∀ tech ∈ regSelf, ¬ tech.id = ['a'] → ¬ ['a'] ∈ prereqIds tech) ∧
    removeTechnology regSelf (['a']) = .error (depMsg (['a']) (['a'])) := by
  constructor
  · decide
  · rfl

/-- C6 (amended): `remove_technology` fails with the dependency message,
naming some technology whose prerequisite set contains the id (possibly the
technology being removed itself), iff such a technology exists; otherwise it
succeeds, the id is absent afterwards, and every other record is kept. -/
theorem C6_remove_guard (reg : Registry) (t : Str) :
    ((∃ tech ∈ reg, t ∈ prereqIds tech) →
      ∃ blocker ∈ reg, t ∈ prereqIds blocker ∧
        removeTechnology reg t = .error (depMsg t blocker.id)) ∧
    ((∀ tech ∈ reg, ¬ t ∈ prereqIds tech) →
      ∃ reg', removeTechnology reg t = .ok reg' ∧
        (∀ x ∈ reg', ¬ x.id = t) ∧
        (∀ x ∈ reg, ¬ x.id = t → x ∈ reg') ∧
        (∀ x ∈ reg', x ∈ reg)) := by
  constructor
  · intro hex
    unfold removeTechnology
    cases hfind : reg.find? (fun tech => decide (t ∈ prereqIds tech)) with
    | none =>
      obtain ⟨tech, htech, hmem⟩ := hex
      have := List.find?_eq_none.mp hfind tech htech
      simp at this
      exact absurd hmem this
    | some blocker =>
      refine ⟨blocker, List.mem_of_find?_eq_some hfind, ?_, rfl⟩
      have := List.find?_some hfind
      simpa using this
  · intro hall
    unfold removeTechnology
    have hfind : reg.find? (fun tech => decide (t ∈ prereqIds tech)) = none := by
      apply List.find?_eq_none.mpr
      intro tech htech
      simpa using hall tech htech
    rw [hfind]
    refine ⟨reg.filter (fun x => decide (¬ x.id = t)), rfl, ?_, ?_, ?_⟩
    · intro x hx
      have := (List.mem_filter.mp hx).2
      simpa using this
    · intro x hx hne
      exact List.mem_filter.mpr ⟨hx, by simpa using hne⟩
    · intro x hx
      exact (List.mem_filter.mp hx).1

/-- Witness for C6 (amended): removing an id no prerequisite set mentions
succeeds and keeps the other record. -/
theorem C6_remove_guard_witness :
    ∃ reg', removeTechnology regDep (['b']) = .ok reg' ∧ (∀ x ∈ reg', ¬ x.id = ['b']) := by
  obtain ⟨reg', h1, h2, _, _⟩ := (C6_remove_guard regDep (['b'])).2 (by decide)
  exact ⟨reg', h1, h2⟩

/-- On success `unlock_technology` returns true and the inserted set. -/
theorem unlockTechnology_eq_pos (reg : Registry) (t : Str) (u : List Str) (pts : Nat)
    (h : isUnlockable reg t u pts = true) :
    unlockTechnology reg t u pts = (true, hsInsert t u) := by
  unfold unlockTechnology
  rw [h]
  simp

/-- On failure `unlock_technology` returns false and the untouched set. -/
theorem unlockTechnology_eq_neg (reg : Registry) (t : Str) (u : List Str) (pts : Nat)
    (h : isUnlockable reg t u pts = false) :
    unlockTechnology reg t u pts = (false, u) := by
  unfold unlockTechnology
  rw [h]
  simp

/-- Inserting an element already present leaves the set unchanged. -/
theorem hsInsert_mem (x : Str) (s : List Str) (h : x ∈ s) : hsInsert x s = s := by
  unfold hsInsert
  exact if_pos h

/-- C7: `unlock_technology` reports exactly `is_unlockable` evaluated on the
incoming unlocked set; on success the id is inserted (set semantics, the old
elements are kept); on failure the set is returned unchanged; and a second
unlock of the same id after a successful one again succeeds and leaves the
set untouched. -/
theorem C7_unlock_behaviour (reg : Registry) (t : Str) (u : List Str) (pts : Nat) :
    ((unlockTechnology reg t u pts).1 = isUnlockable reg t u pts) ∧
    (isUnlockable reg t u pts = true →
      (unlockTechnology reg t u pts).2 = hsInsert t u ∧
      t ∈ (unlockTechnology reg t u pts).2 ∧
      (∀ x ∈ u, x ∈ (unlockTechnology reg t u pts).2) ∧
      (∀ x ∈ (unlockTechnology reg t u pts).2, x = t ∨ x ∈ u)) ∧
    (isUnlockable reg t u pts = false → (unlockTechnology reg t u pts).2 = u) ∧
    ((unlockTechnology reg t u pts).1 = true →
      unlockTechnology reg t ((unlockTechnology reg t u pts).2) pts =
        (true, (unlockTechnology reg t u pts).2)) := by
  refine ⟨?_, ?_, ?_, ?_⟩
  · cases hb : isUnlockable reg t u pts with
    | true => rw [unlockTechnology_eq_pos reg t u pts hb]
    | false => rw [unlockTechnology_eq_neg reg t u pts hb]
  · intro h
    rw [unlockTechnology_eq_pos reg t u pts h]
    refine ⟨rfl, ?_, ?_, ?_⟩
    · exact (mem_hsInsert t t u).mpr (Or.inl rfl)
    · exact fun x hx => (mem_hsInsert x t u).mpr (Or.inr hx)
    · exact fun x hx => (mem_hsInsert x t u).mp hx
  · intro h
    rw [unlockTechnology_eq_neg reg t u pts h]
  · intro h
    have hu : isUnlockable reg t u pts = true := by
      cases hb : isUnlockable reg t u pts with
      | true => rfl
      | false =>
        rw [unlockTechnology_eq_neg reg t u pts hb] at h
        exact absurd h (by simp)
    have hu2 : isUnlockable reg t (hsInsert t u) pts = true :=
      isUnlockable_mono reg t pts u (hsInsert t u)
        (fun x hx => (mem_hsInsert x t u).mpr (Or.inr hx)) hu
    rw [unlockTechnology_eq_pos reg t u pts hu]
    rw [show ((true, hsInsert t u) : Bool × List Str).2 = hsInsert t u from rfl]
    rw [unlockTechnology_eq_pos reg t (hsInsert t u) pts hu2]
    rw [hsInsert_mem t (hsInsert t u) ((mem_hsInsert t t u).mpr (Or.inl rfl))]

/-- Witness for C7: unlocking an eligible technology, then unlocking it
again, returns true both times with an unchanged set the second time. -/
theorem C7_unlock_behaviour_witness :
    unlockTechnology regW (['w']) ((unlockTechnology regW (['w']) [['p']] 15).2) 15 =
      (true, (unlockTechnology regW (['w']) [['p']] 15).2) := by
  exact (C7_unlock_behaviour regW (['w']) [['p']] 15).2.2.2 (by decide)

/-- C8 counterexample: with two affordable prerequisite-free technologies
stored in the iteration order b, a the returned sequence is not sorted by
id, contradicting the claimed sorted order. -/
theorem C8_list_counterexample :
    getUnlockableTechnologies regBA [] 0 = [['b'], ['a']] ∧
    ¬ List.Chain' (fun x y => strLe x y = true) (getUnlockableTechnologies regBA [] 0) := by
  constructor
  · rfl
  · rw [show getUnlockableTechnologies regBA [] 0 = [['b'], ['a']] from rfl]
    intro hch
    exact absurd (List.chain'_cons.mp hch).1 (by decide)

/-- C8 (amended): `get_unlockable_technologies` returns exactly the
registry ids for which `is_unlockable` holds, each exactly once when the
registry keys are distinct, in registry iteration order (not sorted). -/
theorem C8_list_unlockable (reg : Registry) (u : List Str) (pts : Nat)
    (hnd : (reg.map (fun t => t.id)).Nodup) :
    (∀ x, x ∈ getUnlockableTechnologies reg u pts ↔
      (x ∈ reg.map (fun t => t.id) ∧ isUnlockable reg x u pts = true)) ∧
    (getUnlockableTechnologies reg u pts).Nodup := by
  constructor
  · intro x
    unfold getUnlockableTechnologies
    exact List.mem_filter
  · exact hnd.filter _

/-- Witness for C8 (amended): on a concrete registry the returned sequence
is exactly the unlockable ids. -/
theorem C8_list_unlockable_witness :
    (['a']) ∈ getUnlockableTechnologies regBA [] 0 := by
  exact ((C8_list_unlockable regBA [] 0 (by decide)).1 (['a'])).mpr (by decide)

/-- C10: removing an id that is absent from the registry and not mentioned
in any prerequisite set succeeds and leaves the registry unchanged. -/
theorem C10_remove_missing (reg : Registry) (t : Str)
    (habs : ∀ tech ∈ reg, ¬ tech.id = t)
    (href : ∀ tech ∈ reg, ¬ t ∈ prereqIds tech) :
    removeTechnology reg t = .ok reg := by
  unfold removeTechnology
  have hfind : reg.find? (fun tech => decide (t ∈ prereqIds tech)) = none := by
    apply List.find?_eq_none.mpr
    intro tech htech
    simpa using href tech htech
  rw [hfind]
  have : reg.filter (fun x => decide (¬ x.id = t)) = reg := by
    apply List.filter_eq_self.mpr
    intro a ha
    simpa using habs a ha
  rw [this]

/-- Witness for C10: removing an id that nothing stores or references
returns the registry unchanged. -/
theorem C10_remove_missing_witness :
    removeTechnology regDep (['z']) = .ok regDep := by
  exact C10_remove_missing regDep (['z']) (by decide) (by decide)

/-! Codec lemmas. -/

theorem splitOnChar_cons (sep c : Char) (rest : Str) :
    splitOnChar sep (c :: rest) =
      match splitOnChar sep rest with
      | [] => [[]]
      | h :: t => if c = sep then [] :: h :: t else (c :: h) :: t := rfl

theorem joinSep_single (sep : Char) (x : Str) : joinSep sep [x] = x := rfl

theorem joinSep_cons2 (sep : Char) (x y : Str) (rest : List Str) :
    joinSep sep (x :: y :: rest) = x ++ sep :: joinSep sep (y :: rest) := rfl

theorem splitOnChar_ne_nil (sep : Char) (s : Str) : splitOnChar sep s ≠ [] := by
  induction s with
  | nil => simp [splitOnChar]
  | cons c rest ih =>
    rw [splitOnChar_cons]
    cases h : splitOnChar sep rest with
    | nil => exact absurd h ih
    | cons hh tt =>
      dsimp only
      split <;> simp

theorem splitOnChar_of_not_mem (sep : Char) (s : Str) (h : ¬ sep ∈ s) :
    splitOnChar sep s = [s] := by
  induction s with
  | nil => rfl
  | cons c rest ih =>
    have hc : ¬ c = sep := fun hc => h (hc ▸ List.mem_cons_self c rest)
    have hrest : ¬ sep ∈ rest := fun hr => h (List.mem_cons_of_mem c hr)
    rw [splitOnChar_cons, ih hrest]
    simp [hc]

theorem splitOnChar_append (sep : Char) (a b : Str) (h : ¬ sep ∈ a) :
    splitOnChar sep (a ++ sep :: b) = a :: splitOnChar sep b := by
  induction a with
  | nil =>
    simp only [List.nil_append]
    rw [splitOnChar_cons]
    cases hb : splitOnChar sep b with
    | nil => exact absurd hb (splitOnChar_ne_nil sep b)
    | cons hh tt =>
      dsimp only
      rw [if_pos rfl]
  | cons c rest ih =>
    have hc : ¬ c = sep := fun hcs => h (hcs ▸ List.mem_cons_self c rest)
    have hrest : ¬ sep ∈ rest := fun hr => h (List.mem_cons_of_mem c hr)
    simp only [List.cons_append]
    rw [splitOnChar_cons, ih hrest]
    simp [hc]

theorem splitOnChar_joinSep (sep : Char) (L : List Str) (hL : L ≠ [])
    (h : ∀ l ∈ L, ¬ sep ∈ l) : splitOnChar sep (joinSep sep L) = L := by
  induction L with
  | nil => exact absurd rfl hL
  | cons x rest ih =>
    cases rest with
    | nil =>
      rw [joinSep_single]
      exact splitOnChar_of_not_mem sep x (h x (List.mem_cons_self x []))
    | cons y rest' =>
      rw [joinSep_cons2]
      rw [splitOnChar_append sep x (joinSep sep (y :: rest'))
        (h x (List.mem_cons_self x (y :: rest')))]
      rw [ih (by simp) (fun l hl => h l (List.mem_cons_of_mem x hl))]

theorem mem_joinSep (sep : Char) (L : List Str) (c : Char) (h : c ∈ joinSep sep L) :
    c = sep ∨ ∃ l ∈ L, c ∈ l := by
  induction L with
  | nil => exact absurd h (by simp [joinSep])
  | cons x rest ih =>
    cases rest with
    | nil =>
      exact Or.inr ⟨x, List.mem_cons_self x [], by simpa [joinSep_single] using h⟩
    | cons y rest' =>
      rw [joinSep_cons2] at h
      rcases List.mem_append.mp h with hx | hx
      · exact Or.inr ⟨x, List.mem_cons_self x (y :: rest'), hx⟩
      · rcases List.mem_cons.mp hx with hc | hc
        · exact Or.inl hc
        · rcases ih hc with hs | ⟨l, hl, hcl⟩
          · exact Or.inl hs
          · exact Or.inr ⟨l, List.mem_cons_of_mem x hl, hcl⟩

theorem digitChar_spec (d : Nat) (h : d < 10) :
    (digitChar d).isDigit = true ∧ digitVal (digitChar d) = d ∧
    ¬ digitChar d = '\r' ∧ ¬ digitChar d = '\n' ∧ ¬ digitChar d = ';' ∧
    ¬ digitChar d = ':' ∧ ¬ digitChar d = ',' ∧ ¬ digitChar d = '+' := by
  interval_cases d <;> exact ⟨by decide, by decide, by decide, by decide, by decide,
    by decide, by decide, by decide⟩

theorem natToStrAux_digits (fuel : Nat) : ∀ n : Nat, ∀ c ∈ natToStrAux fuel n,
    c.isDigit = true := by
  induction fuel with
  | zero =>
    intro n c hc
    exact absurd hc (by simp [natToStrAux])
  | succ fuel ih =>
    intro n c hc
    rw [natToStrAux] at hc
    by_cases h0 : n = 0
    · rw [if_pos h0] at hc
      exact absurd hc (by simp)
    · rw [if_neg h0] at hc
      rcases List.mem_append.mp hc with hm | hm
      · exact ih (n / 10) c hm
      · have hcd : c = digitChar (n % 10) := by simpa using hm
        rw [hcd]
        exact (digitChar_spec (n % 10) (Nat.mod_lt n (by decide))).1

theorem natToStrAux_ne_nil (fuel n : Nat) (h : ¬ n = 0) (hf : n ≤ fuel) :
    natToStrAux fuel n ≠ [] := by
  cases fuel with
  | zero => exact absurd (Nat.le_zero.mp hf) h
  | succ fuel =>
    rw [natToStrAux, if_neg h]
    simp

theorem natToStrAux_foldl (fuel : Nat) : ∀ n acc : Nat, n ≤ fuel →
    (natToStrAux fuel n).foldl (fun a c => a * 10 + digitVal c) acc =
      acc * 10 ^ (natToStrAux fuel n).length + n := by
  induction fuel with
  | zero =>
    intro n acc hf
    have : n = 0 := Nat.le_zero.mp hf
    rw [this]
    simp [natToStrAux]
  | succ fuel ih =>
    intro n acc hf
    by_cases h0 : n = 0
    · rw [h0, natToStrAux, if_pos rfl]
      simp
    · rw [natToStrAux, if_neg h0]
      rw [List.foldl_append]
      have hdiv : n / 10 ≤ fuel := by
        have h1 : n / 10 < n := Nat.div_lt_self (Nat.pos_of_ne_zero h0) (by decide)
        omega
      rw [ih (n / 10) acc hdiv]
      simp only [List.foldl_cons, List.foldl_nil, List.length_append, List.length_cons,
        List.length_nil]
      rw [(digitChar_spec (n % 10) (Nat.mod_lt n (by decide))).2.1]
      rw [pow_succ]
      rw [Nat.add_mul, Nat.mul_assoc]
      rw [Nat.add_assoc]
      omega

theorem natToStr_digits (n : Nat) : ∀ c ∈ natToStr n, c.isDigit = true := by
  intro c hc
  unfold natToStr at hc
  by_cases h0 : n = 0
  · rw [if_pos h0] at hc
    have hcd : c = '0' := by simpa using hc
    rw [hcd]
    decide
  · rw [if_neg h0] at hc
    exact natToStrAux_digits n n c hc

theorem natToStr_ne_nil (n : Nat) : natToStr n ≠ [] := by
  unfold natToStr
  by_cases h0 : n = 0
  · rw [if_pos h0]
    simp
  · rw [if_neg h0]
    exact natToStrAux_ne_nil n n h0 (Nat.le_refl n)

theorem parseU32_natToStr (n : Nat) (h : n < 4294967296) :
    parseU32 (natToStr n) = some n := by
  have hdig := natToStr_digits n
  have hne := natToStr_ne_nil n
  have hplus : ¬ (natToStr n).head? = some '+' := by
    cases hs : natToStr n with
    | nil => exact absurd hs hne
    | cons c rest =>
      have : c.isDigit = true := hdig c (hs ▸ List.mem_cons_self c rest)
      simp only [List.head?]
      intro hcon
      have hc : c = '+' := by simpa using hcon
      rw [hc] at this
      exact absurd this (by decide)
  unfold parseU32
  rw [if_neg hplus]
  rw [if_neg (by simpa [List.isEmpty_iff] using hne)]
  rw [if_pos (List.all_eq_true.mpr (fun c hc => by simpa using hdig c hc))]
  have hfold : (natToStr n).foldl (fun a c => a * 10 + digitVal c) 0 = n := by
    unfold natToStr
    by_cases h0 : n = 0
    · rw [if_pos h0, h0]
      decide
    · rw [if_neg h0]
      have := natToStrAux_foldl n n 0 (Nat.le_refl n)
      simpa using this
  rw [hfold, if_pos h]

theorem stripCR_eq (l : Str) (h : ¬ l.getLast? = some '\r') : stripCR l = l := by
  unfold stripCR
  exact if_neg h

theorem rustLinesAux_single (l : Str) :
    rustLinesAux [l] = if l.isEmpty then [] else [l] := rfl

theorem rustLinesAux_cons2 (l l2 : Str) (rest : List Str) :
    rustLinesAux (l :: l2 :: rest) = stripCR l :: rustLinesAux (l2 :: rest) := rfl

theorem rustLinesAux_eq (L : List Str)
    (h : ∀ l ∈ L, l ≠ [] ∧ ¬ l.getLast? = some '\r') : rustLinesAux L = L := by
  induction L with
  | nil => rfl
  | cons l rest ih =>
    cases rest with
    | nil =>
      rw [rustLinesAux_single,
        if_neg (by simpa [List.isEmpty_iff] using (h l (List.mem_cons_self l [])).1)]
    | cons l2 rest' =>
      rw [rustLinesAux_cons2,
        stripCR_eq l (h l (List.mem_cons_self l (l2 :: rest'))).2,
        ih (fun x hx => h x (List.mem_cons_of_mem l hx))]

theorem serializePrereqs_and (ps : List Str) :
    serializePrereqs (.And ps) = "And".toList ++ ':' :: joinSep ',' ps := rfl

theorem serializePrereqs_or (ps : List Str) :
    serializePrereqs (.Or ps) = "Or".toList ++ ':' :: joinSep ',' ps := rfl

theorem prereqIds_and (t : Technology) (ps : List Str) (h : t.prerequisites = .And ps) :
    prereqIds t = ps := by
  unfold prereqIds
  rw [h]

theorem prereqIds_or (t : Technology) (ps : List Str) (h : t.prerequisites = .Or ps) :
    prereqIds t = ps := by
  unfold prereqIds
  rw [h]

theorem notin_natToStr (n : Nat) (c : Char) (hc : c.isDigit = false) :
    ¬ c ∈ natToStr n := by
  intro h
  have := natToStr_digits n c h
  rw [hc] at this
  exact absurd this (by simp)

theorem notin_serializePrereqs (t : Technology) (c : Char)
    (h1 : ¬ c = ':') (h2 : ¬ c = ',')
    (h3 : ¬ c ∈ "And".toList) (h4 : ¬ c ∈ "Or".toList)
    (h5 : ∀ p ∈ prereqIds t, ¬ c ∈ p) :
    ¬ c ∈ serializePrereqs t.prerequisites := by
  intro h
  cases hp : t.prerequisites with
  | And ps =>
    rw [hp, serializePrereqs_and] at h
    rcases List.mem_append.mp h with hm | hm
    · exact h3 hm
    · rcases List.mem_cons.mp hm with hm | hm
      · exact h1 hm
      · rcases mem_joinSep ',' ps c hm with hm | ⟨p, hpmem, hcp⟩
        · exact h2 hm
        · exact h5 p (by rw [prereqIds_and t ps hp]; exact hpmem) hcp
  | Or ps =>
    rw [hp, serializePrereqs_or] at h
    rcases List.mem_append.mp h with hm | hm
    · exact h4 hm
    · rcases List.mem_cons.mp hm with hm | hm
      · exact h1 hm
      · rcases mem_joinSep ',' ps c hm with hm | ⟨p, hpmem, hcp⟩
        · exact h2 hm
        · exact h5 p (by rw [prereqIds_or t ps hp]; exact hpmem) hcp

theorem serializeLine_shape (t : Technology) :
    serializeLine t =
      t.id ++ ';' :: (t.name ++ ';' :: (t.description ++ ';' ::
        (serializePrereqs t.prerequisites ++ ';' :: natToStr t.cost))) := by
  unfold serializeLine
  simp

theorem serializeLine_split (t : Technology) (hc : cleanTech t) :
    splitOnChar ';' (serializeLine t) =
      [t.id, t.name, t.description, serializePrereqs t.prerequisites, natToStr t.cost] := by
  obtain ⟨hid, hname, hdesc, hpre, hcost⟩ := hc
  rw [serializeLine_shape]
  rw [splitOnChar_append ';' _ _ hid.1]
  rw [splitOnChar_append ';' _ _ hname.1]
  rw [splitOnChar_append ';' _ _ hdesc.1]
  rw [splitOnChar_append ';' _ _
    (notin_serializePrereqs t ';' (by decide) (by decide) (by decide) (by decide)
      (fun p hp => (hpre p hp).2.1))]
  rw [splitOnChar_of_not_mem ';' _ (notin_natToStr t.cost ';' (by decide))]

theorem serializeLine_ne_nil (t : Technology) : serializeLine t ≠ [] := by
  rw [serializeLine_shape]
  cases h : t.id with
  | nil => simp
  | cons c rest => simp

theorem serializeLine_getLast (t : Technology) :
    ¬ (serializeLine t).getLast? = some '\r' := by
  have hsh : serializeLine t =
      (t.id ++ ';' :: t.name ++ ';' :: t.description ++ ';' ::
        serializePrereqs t.prerequisites ++ [';']) ++ natToStr t.cost := by
    rw [serializeLine_shape]
    simp
  rw [hsh, List.getLast?_append_of_ne_nil _ (natToStr_ne_nil t.cost)]
  intro h
  obtain ⟨hne, heq⟩ :=
    List.mem_getLast?_eq_getLast (l := natToStr t.cost) (x := '\r') (Option.mem_def.mpr h)
  have hmem : '\r' ∈ natToStr t.cost := heq ▸ List.getLast_mem hne
  exact absurd (natToStr_digits t.cost _ hmem) (by decide)

theorem serializeLine_no_nl (t : Technology) (hc : cleanTech t) :
    ¬ '\n' ∈ serializeLine t := by
  obtain ⟨hid, hname, hdesc, hpre, _⟩ := hc
  intro h
  rw [serializeLine_shape] at h
  simp only [List.mem_append, List.mem_cons] at h
  rcases h with h | h | h | h | h | h | h | h | h
  · exact hid.2.2.2 h
  · exact absurd h (by decide)
  · exact hname.2.2.2 h
  · exact absurd h (by decide)
  · exact hdesc.2.2.2 h
  · exact absurd h (by decide)
  · exact notin_serializePrereqs t '\n' (by decide) (by decide) (by decide) (by decide)
      (fun p hp => (hpre p hp).2.2.2.2) h
  · exact absurd h (by decide)
  · exact notin_natToStr t.cost '\n' (by decide) h

theorem rustLines_serialize (reg : Registry) (hc : ∀ t ∈ reg, cleanTech t) :
    rustLines (serialize reg) = reg.map serializeLine := by
  cases hr : reg with
  | nil => rfl
  | cons t rest =>
    unfold serialize rustLines
    rw [hr] at hc
    rw [splitOnChar_joinSep '\n' _ (by simp)
      (fun l hl => by
        obtain ⟨u, hu, rfl⟩ := List.mem_map.mp hl
        exact serializeLine_no_nl u (hc u hu))]
    exact rustLinesAux_eq _
      (fun l hl => by
        obtain ⟨u, _, rfl⟩ := List.mem_map.mp hl
        exact ⟨serializeLine_ne_nil u, serializeLine_getLast u⟩)

theorem filter_nonempty_eq_self (L : List Str) (h : ∀ l ∈ L, l ≠ []) :
    L.filter (fun s => decide ¬ s.isEmpty = true) = L := by
  apply List.filter_eq_self.mpr
  intro a ha
  simpa [List.isEmpty_iff] using h a ha

theorem parseLine_serializeLine (t : Technology) (hc : cleanTech t) :
    parseLine (serializeLine t) = some (some t) := by
  have hsplit := serializeLine_split t hc
  obtain ⟨hid, hname, hdesc, hpre, hcost⟩ := hc
  unfold parseLine
  rw [hsplit]
  dsimp only
  have hnocomma : ∀ p ∈ prereqIds t, ¬ ',' ∈ p := fun p hp => (hpre p hp).2.2.2.1
  have hnonempty : ∀ p ∈ prereqIds t, p ≠ [] := fun p hp => (hpre p hp).1
  cases hp : t.prerequisites with
  | And ps =>
    have hpids : prereqIds t = ps := prereqIds_and t ps hp
    rw [serializePrereqs_and]
    have hj : ¬ ':' ∈ joinSep ',' ps := by
      intro hm
      rcases mem_joinSep ',' ps ':' hm with hm | ⟨p, hpm, hcp⟩
      · exact absurd hm (by decide)
      · exact (hpre p (hpids ▸ hpm)).2.2.1 hcp
    rw [splitOnChar_append ':' _ _ (by decide)]
    rw [splitOnChar_of_not_mem ':' _ hj]
    dsimp only
    rw [if_pos rfl]
    have hps : (splitOnChar ',' (joinSep ',' ps)).filter
        (fun s => decide ¬ s.isEmpty = true) = ps := by
      by_cases hps0 : ps = []
      · rw [hps0]
        rfl
      · rw [splitOnChar_joinSep ',' ps hps0 (fun l hl => hnocomma l (hpids ▸ hl))]
        exact filter_nonempty_eq_self ps (fun l hl => hnonempty l (hpids ▸ hl))
    rw [hps, parseU32_natToStr t.cost hcost]
    cases t with
    | mk tid tname tdesc tpre tcost =>
      dsimp only at hp ⊢
      rw [hp]
      rfl
  | Or ps =>
    have hpids : prereqIds t = ps := prereqIds_or t ps hp
    rw [serializePrereqs_or]
    have hj : ¬ ':' ∈ joinSep ',' ps := by
      intro hm
      rcases mem_joinSep ',' ps ':' hm with hm | ⟨p, hpm, hcp⟩
      · exact absurd hm (by decide)
      · exact (hpre p (hpids ▸ hpm)).2.2.1 hcp
    rw [splitOnChar_append ':' _ _ (by decide)]
    rw [splitOnChar_of_not_mem ':' _ hj]
    dsimp only
    rw [if_neg (by decide), if_pos rfl]
    have hps : (splitOnChar ',' (joinSep ',' ps)).filter
        (fun s => decide ¬ s.isEmpty = true) = ps := by
      by_cases hps0 : ps = []
      · rw [hps0]
        rfl
      · rw [splitOnChar_joinSep ',' ps hps0 (fun l hl => hnocomma l (hpids ▸ hl))]
        exact filter_nonempty_eq_self ps (fun l hl => hnonempty l (hpids ▸ hl))
    rw [hps, parseU32_natToStr t.cost hcost]
    cases t with
    | mk tid tname tdesc tpre tcost =>
      dsimp only at hp ⊢
      rw [hp]
      rfl

theorem deserializeGo_cons (l : Str) (ls : List Str) (acc : Registry) :
    deserializeGo (l :: ls) acc =
      match parseLine l with
      | none => none
      | some none => deserializeGo ls acc
      | some (some t) => deserializeGo ls (mapInsert acc t) := rfl

theorem deserializeGo_serialize (reg : Registry) : ∀ acc : Registry,
    (∀ t ∈ reg, cleanTech t) →
    (((acc ++ reg).map (fun t => t.id)).Nodup) →
    deserializeGo (reg.map serializeLine) acc = some (acc ++ reg) := by
  induction reg with
  | nil =>
    intro acc _ _
    simp [deserializeGo]
  | cons t rest ih =>
    intro acc hclean hnd
    rw [List.map_cons, deserializeGo_cons,
      parseLine_serializeLine t (hclean t (List.mem_cons_self t rest))]
    dsimp only
    have hnotin : ∀ x ∈ acc, ¬ x.id = t.id := by
      intro x hx heq
      rw [List.map_append, List.map_cons] at hnd
      have hdisj := (List.nodup_append.mp hnd).2.2
      exact hdisj (List.mem_map.mpr ⟨x, hx, heq⟩) (List.mem_cons_self t.id _)
    have hins : mapInsert acc t = acc ++ [t] := by
      unfold mapInsert
      rw [List.filter_eq_self.mpr (fun x hx => by simpa using hnotin x hx)]
    rw [hins]
    have hassoc : (acc ++ [t]) ++ rest = acc ++ t :: rest := by simp
    rw [ih (acc ++ [t]) (fun u hu => hclean u (List.mem_cons_of_mem t hu))
      (by rw [hassoc]; exact hnd)]
    rw [hassoc]

/-- C4: the claim says `deserialize` is total and silently skips every
malformed line; in fact a five-field line whose prerequisite field contains
no colon (here `a;b;c;And;5`) makes the Rust code panic on the unchecked
`prereq_parts[1]` index, modelled as `none`. -/
theorem C4_deserialize_panics : deserialize badLine = none := by decide

/-- C5 counterexample: a registry whose id, name and description are free of
the delimiter characters, but whose prerequisite set holds the empty string,
round-trips to a registry whose prerequisite set lost that element, so the
claimed prerequisite id set equality fails. -/
theorem C5_roundtrip_counterexample :
    cleanStr techEmptyPre.id ∧ cleanStr techEmptyPre.name ∧
    cleanStr techEmptyPre.description ∧
    deserialize (serialize regEmptyPre) = some [techEmptyPre'] ∧
    ([] : Str) ∈ prereqIds techEmptyPre ∧ ¬ ([] : Str) ∈ prereqIds techEmptyPre' := by
  exact ⟨by decide, by decide, by decide, by decide, by decide, by decide⟩

/-- C5 (amended): for a registry with distinct ids whose id, name,
description and prerequisite ids are all free of the characters semicolon,
colon, comma and newline, whose prerequisite ids are non-empty, and whose
costs fit in a `u32`, deserializing the serialized form returns exactly the
same registry (hence identical ids and, for each id, identical name,
description, cost, prerequisite kind and prerequisite id set). -/
theorem C5_roundtrip (reg : Registry) (hnd : (reg.map (fun t => t.id)).Nodup)
    (hclean : ∀ t ∈ reg, cleanTech t) :
    deserialize (serialize reg) = some reg := by
  unfold deserialize
  rw [rustLines_serialize reg hclean]
  have h := deserializeGo_serialize reg [] hclean (by simpa using hnd)
  simpa using h

/-- Witness for C5 (amended): a concrete clean registry round-trips to
itself. -/
theorem C5_roundtrip_witness : deserialize (serialize regRound) = some regRound := by
  exact C5_roundtrip regRound (by decide) (by decide)

/-! Path-search lemmas. -/

theorem popMin_eq_none (l : List Node) : popMin l = none ↔ l = [] := by
  cases l with
  | nil => simp [popMin]
  | cons n rest =>
    constructor
    · intro h
      rw [popMin] at h
      cases hr : popMin rest with
      | none => rw [hr] at h; exact absurd h (by simp)
      | some pr =>
        rw [hr] at h
        obtain ⟨m, rest'⟩ := pr
        dsimp only at h
        split at h <;> exact absurd h (by simp)
    · intro h
      exact absurd h (by simp)

theorem popMin_perm (l : List Node) (n : Node) (l' : List Node)
    (h : popMin l = some (n, l')) : l.Perm (n :: l') := by
  induction l generalizing n l' with
  | nil => exact absurd h (by simp [popMin])
  | cons x rest ih =>
    rw [popMin] at h
    cases hr : popMin rest with
    | none =>
      rw [hr] at h
      have hrest : rest = [] := (popMin_eq_none rest).mp hr
      subst hrest
      simp only [Option.some_inj, Prod.mk.injEq] at h
      rw [← h.1, ← h.2]
    | some pr =>
      obtain ⟨m, rest'⟩ := pr
      rw [hr] at h
      dsimp only at h
      have hperm := ih m rest' hr
      split at h
      · simp only [Option.some_inj, Prod.mk.injEq] at h
        rw [← h.1, ← h.2]
      · simp only [Option.some_inj, Prod.mk.injEq] at h
        rw [← h.1, ← h.2]
        exact (List.Perm.cons x hperm).trans (List.Perm.swap m x rest')

theorem lookupA_mem (p : List (Str × Str)) (k v : Str) (h : lookupA p k = some v) :
    (k, v) ∈ p := by
  induction p with
  | nil => exact absurd h (by simp [lookupA])
  | cons e rest ih =>
    rw [lookupA] at h
    by_cases he : e.1 = k
    · rw [if_pos he] at h
      have hv : e.2 = v := by simpa using h
      have : e = (k, v) := by
        cases e
        simp only at he hv
        rw [he, hv]
      exact this ▸ List.mem_cons_self e rest
    · rw [if_neg he] at h
      exact List.mem_cons_of_mem e (ih h)

theorem lookupA_isSome_append (es p : List (Str × Str)) (k : Str)
    (h : (lookupA p k).isSome = true) : (lookupA (es ++ p) k).isSome = true := by
  induction es with
  | nil => exact h
  | cons e rest ih =>
    rw [List.cons_append, lookupA]
    by_cases he : e.1 = k
    · rw [if_pos he]
      rfl
    · rw [if_neg he]
      exact ih

theorem lookupA_append_not_key (es p : List (Str × Str)) (k : Str)
    (h : ∀ e ∈ es, ¬ e.1 = k) : lookupA (es ++ p) k = lookupA p k := by
  induction es with
  | nil => rfl
  | cons e rest ih =>
    rw [List.cons_append, lookupA, if_neg (h e (List.mem_cons_self e rest))]
    exact ih (fun x hx => h x (List.mem_cons_of_mem e hx))

theorem isUnlockable_mem (reg : Registry) (n : Str) (u : List Str) (pts : Nat)
    (h : isUnlockable reg n u pts = true) : ∃ t ∈ reg, t.id = n := by
  unfold isUnlockable at h
  cases hlook : lookupTech reg n with
  | none => rw [hlook] at h; exact absurd h (by simp)
  | some tech =>
    refine ⟨tech, List.mem_of_find?_eq_some hlook, ?_⟩
    have := List.find?_some hlook
    simpa using this

theorem append_cons_inj (a : Str) : ∀ (p1 p2 : List Str) (s s' : List Str),
    ¬ a ∈ p1 → ¬ a ∈ p2 → p1 ++ a :: s = p2 ++ a :: s' → s = s' := by
  intro p1
  induction p1 with
  | nil =>
    intro p2 s s' _ hp2 heq
    cases p2 with
    | nil => simpa using heq
    | cons x p2' =>
      simp only [List.nil_append, List.cons_append, List.cons.injEq] at heq
      exact absurd (heq.1 ▸ List.mem_cons_self x p2' : a ∈ x :: p2')
        (heq.1 ▸ hp2)
  | cons x p1' ih =>
    intro p2 s s' hp1 hp2 heq
    cases p2 with
    | nil =>
      simp only [List.cons_append, List.nil_append, List.cons.injEq] at heq
      exact absurd (heq.1 ▸ List.mem_cons_self x p1' : a ∈ x :: p1') (heq.1 ▸ hp1)
    | cons y p2' =>
      simp only [List.cons_append, List.cons.injEq] at heq
      exact ih p2' s s' (fun hm => hp1 (List.mem_cons_of_mem x hm))
        (fun hm => hp2 (List.mem_cons_of_mem y hm)) heq.2

theorem suffix_cons_unique (v : List Str) (hnd : v.Nodup) (a : Str) (s s' : List Str)
    (h1 : (a :: s) <:+ v) (h2 : (a :: s') <:+ v) : s = s' := by
  obtain ⟨p1, hp1⟩ := h1
  obtain ⟨p2, hp2⟩ := h2
  have ha1 : ¬ a ∈ p1 := by
    intro hm
    rw [← hp1] at hnd
    exact (List.disjoint_of_nodup_append hnd) hm (List.mem_cons_self a s)
  have ha2 : ¬ a ∈ p2 := by
    intro hm
    rw [← hp2] at hnd
    exact (List.disjoint_of_nodup_append hnd) hm (List.mem_cons_self a s')
  exact append_cons_inj a p1 p2 s s' ha1 ha2 (by rw [hp1, hp2])

theorem suffix_of_cons_suffix (a : Str) (s v : List Str) (h : (a :: s) <:+ v) :
    s <:+ v := ((List.suffix_cons a s).trans h)

theorem filter_notmem_cons_lt (x : Str) (visited : List Str) (hnv : ¬ x ∈ visited) :
    ∀ l : List Str, x ∈ l →
      (l.filter (fun y => decide (¬ y ∈ x :: visited))).length <
        (l.filter (fun y => decide (¬ y ∈ visited))).length := by
  intro l
  induction l with
  | nil => intro h; exact absurd h (by simp)
  | cons y l ih =>
    intro hx
    by_cases hyx : y = x
    · rw [List.filter_cons, List.filter_cons]
      rw [if_neg (by simp [hyx]), if_pos (by simp [hyx, hnv])]
      rw [List.length_cons]
      refine Nat.lt_succ_of_le ?_
      apply List.Sublist.length_le
      apply List.monotone_filter_right
      intro a ha
      simp only [decide_eq_true_eq, List.mem_cons] at ha ⊢
      exact fun hm => ha (Or.inr hm)
    · have hx' : x ∈ l := by
        rcases List.mem_cons.mp hx with h | h
        · exact absurd h.symm hyx
        · exact h
      rw [List.filter_cons, List.filter_cons]
      by_cases hyv : y ∈ visited
      · rw [if_neg (by simp [hyv]), if_neg (by simpa using hyv)]
        exact ih hx'
      · rw [if_pos (by simp [hyx, hyv]), if_pos (by simpa using hyv)]
        simpa using ih hx'

theorem remaining_cons_lt (reg : Registry) (unlockedL visited : List Str) (x : Str)
    (hx : x ∈ unlockedL ++ regIds reg) (hnv : ¬ x ∈ visited) :
    remaining reg unlockedL (x :: visited) < remaining reg unlockedL visited := by
  unfold remaining
  exact filter_notmem_cons_lt x visited hnv _ (List.mem_dedup.mpr hx)

theorem remaining_init_le (reg : Registry) (unlockedL : List Str) :
    remaining reg unlockedL [] ≤ unlockedL.length + reg.length := by
  unfold remaining
  calc (((unlockedL ++ regIds reg).dedup).filter (fun x => decide (¬ x ∈ ([] : List Str)))).length
      ≤ ((unlockedL ++ regIds reg).dedup).length := (List.filter_sublist _).length_le
    _ ≤ (unlockedL ++ regIds reg).length := (List.dedup_sublist _).length_le
    _ = unlockedL.length + reg.length := by simp [regIds]

theorem expandEntry_pos (reg : Registry) (u : List Str) (pts : Nat) (vis : List Str)
    (cur : Str) (cc : Int) (st : List Node × List (Str × Str)) (t : Technology)
    (hc : econd reg u pts vis t) :
    expandEntry reg u pts vis cur cc st t =
      (st.1 ++ [⟨t.id, wrap32 (-(wrap32 (cc + wrap32 (t.cost : Int))))⟩],
        (t.id, cur) :: st.2) := by
  unfold econd at hc
  unfold expandEntry
  exact if_pos hc

theorem expandEntry_neg (reg : Registry) (u : List Str) (pts : Nat) (vis : List Str)
    (cur : Str) (cc : Int) (st : List Node × List (Str × Str)) (t : Technology)
    (hc : ¬ econd reg u pts vis t) :
    expandEntry reg u pts vis cur cc st t = st := by
  unfold econd at hc
  unfold expandEntry
  exact if_neg hc

theorem expand_spec (reg : Registry) (unlockedL : List Str) (pts : Nat)
    (vis : List Str) (curId : Str) (curCost : Int) :
    ∀ (ts : List Technology) (h0 : List Node) (p0 : List (Str × Str))
      (st : List Node × List (Str × Str)),
      st = ts.foldl (expandEntry reg unlockedL pts vis curId curCost) (h0, p0) →
      (∃ new, st.1 = h0 ++ new ∧ new.length ≤ ts.length ∧
        (∀ nd ∈ new, ∃ t, t ∈ ts ∧ nd.tech_id = t.id ∧ econd reg unlockedL pts vis t)) ∧
      (∀ e ∈ st.2, e ∈ p0 ∨ ∃ t, t ∈ ts ∧ e = (t.id, curId) ∧ econd reg unlockedL pts vis t) ∧
      (∀ k, (∀ t ∈ ts, econd reg unlockedL pts vis t → ¬ t.id = k) →
        lookupA st.2 k = lookupA p0 k) ∧
      (∀ k, (lookupA p0 k).isSome = true → (lookupA st.2 k).isSome = true) ∧
      (∀ t ∈ ts, econd reg unlockedL pts vis t →
        (∃ nd ∈ st.1, nd.tech_id = t.id) ∧ (lookupA st.2 t.id).isSome = true) := by
  intro ts
  induction ts with
  | nil =>
    intro h0 p0 st hst
    rw [List.foldl_nil] at hst
    subst hst
    refine ⟨⟨[], by simp, by simp, by simp⟩, ?_, ?_, ?_, ?_⟩
    · intro e he
      exact Or.inl he
    · intro k _
      rfl
    · intro k hk
      exact hk
    · intro t ht
      exact absurd ht (by simp)
  | cons t ts' ih =>
    intro h0 p0 st hst
    rw [List.foldl_cons] at hst
    by_cases hc : econd reg unlockedL pts vis t
    · rw [expandEntry_pos reg unlockedL pts vis curId curCost (h0, p0) t hc] at hst
      set nodeT : Node := ⟨t.id, wrap32 (-(wrap32 (curCost + wrap32 (t.cost : Int))))⟩ with hnodeT
      obtain ⟨⟨new', ha1, ha2, ha3⟩, hb, hcc, hd, he⟩ :=
        ih (h0 ++ [nodeT]) ((t.id, curId) :: p0) st hst
      refine ⟨⟨[nodeT] ++ new', ?_, ?_, ?_⟩, ?_, ?_, ?_, ?_⟩
      · rw [ha1, List.append_assoc]
      · have hlen : ([nodeT] ++ new').length = new'.length + 1 := by simp
        rw [hlen, List.length_cons]
        omega
      · intro nd hnd
        rcases List.mem_append.mp hnd with hm | hm
        · have : nd = nodeT := by simpa using hm
          exact ⟨t, List.mem_cons_self t ts', by rw [this], hc⟩
        · obtain ⟨u', hu1, hu2, hu3⟩ := ha3 nd hm
          exact ⟨u', List.mem_cons_of_mem t hu1, hu2, hu3⟩
      · intro e he
        rcases hb e he with hm | ⟨u', hu1, hu2, hu3⟩
        · rcases List.mem_cons.mp hm with hm | hm
          · exact Or.inr ⟨t, List.mem_cons_self t ts', hm, hc⟩
          · exact Or.inl hm
        · exact Or.inr ⟨u', List.mem_cons_of_mem t hu1, hu2, hu3⟩
      · intro k hk
        have h1 := hcc k (fun u' hu' hcu' => hk u' (List.mem_cons_of_mem t hu') hcu')
        rw [h1, lookupA, if_neg (hk t (List.mem_cons_self t ts') hc)]
      · intro k hk
        apply hd k
        rw [lookupA]
        by_cases hek : t.id = k
        · rw [if_pos hek]
          rfl
        · rw [if_neg hek]
          exact hk
      · intro u' hu' hcu'
        rcases List.mem_cons.mp hu' with hm | hm
        · subst hm
          constructor
          · refine ⟨nodeT, ?_, rfl⟩
            rw [ha1]
            exact List.mem_append_left new' (List.mem_append_right h0 (by simp))
          · apply hd
            rw [lookupA, if_pos rfl]
            rfl
        · exact he u' hm hcu'
    · rw [expandEntry_neg reg unlockedL pts vis curId curCost (h0, p0) t hc] at hst
      obtain ⟨⟨new', ha1, ha2, ha3⟩, hb, hcc, hd, he⟩ := ih h0 p0 st hst
      refine ⟨⟨new', ha1, by simpa using Nat.le_succ_of_le ha2, ?_⟩, ?_, ?_, hd, ?_⟩
      · intro nd hnd
        obtain ⟨u', hu1, hu2, hu3⟩ := ha3 nd hnd
        exact ⟨u', List.mem_cons_of_mem t hu1, hu2, hu3⟩
      · intro e he'
        rcases hb e he' with hm | ⟨u', hu1, hu2, hu3⟩
        · exact Or.inl hm
        · exact Or.inr ⟨u', List.mem_cons_of_mem t hu1, hu2, hu3⟩
      · intro k hk
        exact hcc k (fun u' hu' hcu' => hk u' (List.mem_cons_of_mem t hu') hcu')
      · intro u' hu' hcu'
        rcases List.mem_cons.mp hu' with hm | hm
        · exact absurd (hm ▸ hcu') hc
        · exact he u' hm hcu'

theorem buildPath_spec (unlockedL : List Str) (parent : List (Str × Str))
    (visited : List Str)
    (hp1 : ∀ e ∈ parent, ¬ e.1 ∈ unlockedL)
    (hnd : visited.Nodup)
    (hp2 : ∀ k v, k ∈ visited → lookupA parent k = some v →
      ∃ s, (k :: s) <:+ visited ∧ v ∈ s)
    (hp3 : ∀ k ∈ visited, ¬ k ∈ unlockedL → (lookupA parent k).isSome = true) :
    ∀ (fuel : Nat) (s : List Str) (node : Str) (path : List Str),
      (node :: s) <:+ visited → s.length + 1 ≤ fuel →
      ∃ ps, buildPath parent fuel node path = (path ++ ps).reverse ∧
        (∀ x ∈ ps, x ∈ s) ∧
        (node ∈ unlockedL → ps = []) ∧
        (¬ node ∈ unlockedL →
          ps ≠ [] ∧ ∃ seed, ps.getLast? = some seed ∧ seed ∈ unlockedL) := by
  intro fuel
  induction fuel with
  | zero =>
    intro s node path _ hf
    exact absurd hf (by omega)
  | succ fuel ih =>
    intro s node path hsuf hf
    rw [buildPath]
    cases hlook : lookupA parent node with
    | none =>
      refine ⟨[], by simp, by simp, fun _ => rfl, ?_⟩
      intro hnu
      have hvis : node ∈ visited := hsuf.subset (List.mem_cons_self node s)
      have := hp3 node hvis hnu
      rw [hlook] at this
      exact absurd this (by simp)
    | some p =>
      dsimp only
      have hmemP : (node, p) ∈ parent := lookupA_mem parent node p hlook
      have hnodeNu : ¬ node ∈ unlockedL := hp1 (node, p) hmemP
      have hnodeVis : node ∈ visited := hsuf.subset (List.mem_cons_self node s)
      obtain ⟨s', hs'suf, hps'⟩ := hp2 node p hnodeVis hlook
      have hss : s' = s := suffix_cons_unique visited hnd node s' s hs'suf hsuf
      rw [hss] at hps'
      obtain ⟨l1, s2, hdecomp⟩ := List.append_of_mem hps'
      have hsuf2 : (p :: s2) <:+ visited :=
        List.IsSuffix.trans ⟨l1, hdecomp.symm⟩ (suffix_of_cons_suffix node s visited hsuf)
      have hlen2 : s2.length + 1 ≤ fuel := by
        have hsl : s.length = l1.length + s2.length + 1 := by
          rw [hdecomp, List.length_append, List.length_cons]
          omega
        omega
      obtain ⟨ps', hb1, hb2, hb3, hb4⟩ := ih s2 p (path ++ [p]) hsuf2 hlen2
      refine ⟨p :: ps', ?_, ?_, ?_, ?_⟩
      · rw [hb1, List.append_assoc]
        rfl
      · intro x hx
        rcases List.mem_cons.mp hx with hm | hm
        · rw [hm]
          exact hps'
        · have : x ∈ s2 := hb2 x hm
          rw [hdecomp]
          exact List.mem_append_right l1 (List.mem_cons_of_mem p this)
      · intro hnu
        exact absurd hnu hnodeNu
      · intro _
        refine ⟨by simp, ?_⟩
        by_cases hpu : p ∈ unlockedL
        · rw [hb3 hpu]
          exact ⟨p, rfl, hpu⟩
        · obtain ⟨hne, seed, hl, hu⟩ := hb4 hpu
          refine ⟨seed, ?_, hu⟩
          cases hps0 : ps' with
          | nil => exact absurd hps0 hne
          | cons a l =>
            rw [hps0] at hl
            rw [List.getLast?_cons_cons]
            exact hl

theorem pathLoop_zero (reg : Registry) (unlockedL : List Str) (pts : Nat) (target : Str)
    (heap : List Node) (parent : List (Str × Str)) (visited : List Str) :
    pathLoop reg unlockedL pts target 0 heap parent visited = none := rfl

theorem pathLoop_succ (reg : Registry) (unlockedL : List Str) (pts : Nat) (target : Str)
    (fuel : Nat) (heap : List Node) (parent : List (Str × Str)) (visited : List Str) :
    pathLoop reg unlockedL pts target (fuel + 1) heap parent visited =
      match popMin heap with
      | none => none
      | some (cur, heap') =>
        if cur.tech_id ∈ visited then
          pathLoop reg unlockedL pts target fuel heap' parent visited
        else
          if cur.tech_id = target then
            some (buildPath parent (visited.length + 1) target [])
          else
            let st := reg.foldl
              (expandEntry reg unlockedL pts (cur.tech_id :: visited) cur.tech_id
                (wrap32 (-cur.cost)))
              (heap', parent)
            pathLoop reg unlockedL pts target fuel st.1 st.2 (cur.tech_id :: visited) := rfl

theorem pathLoop_none (reg : Registry) (unlockedL : List Str) (pts : Nat) (target : Str)
    (hnu : isUnlockable reg target unlockedL pts = false) :
    ∀ (fuel : Nat) (heap : List Node) (parent : List (Str × Str)) (visited : List Str),
      (∀ nd ∈ heap, ¬ nd.tech_id = target) →
      pathLoop reg unlockedL pts target fuel heap parent visited = none := by
  intro fuel
  induction fuel with
  | zero => intro heap parent visited _; rfl
  | succ fuel ih =>
    intro heap parent visited hheap
    rw [pathLoop_succ]
    cases hpop : popMin heap with
    | none => rfl
    | some pr =>
      obtain ⟨cur, heap'⟩ := pr
      dsimp only
      have hperm := popMin_perm heap cur heap' hpop
      have hcur : cur ∈ heap := hperm.mem_iff.mpr (List.mem_cons_self cur heap')
      have hsub : ∀ nd ∈ heap', nd ∈ heap :=
        fun nd hnd => hperm.mem_iff.mpr (List.mem_cons_of_mem cur hnd)
      by_cases hv : cur.tech_id ∈ visited
      · rw [if_pos hv]
        exact ih heap' parent visited (fun nd hnd => hheap nd (hsub nd hnd))
      · rw [if_neg hv, if_neg (hheap cur hcur)]
        obtain ⟨⟨new, ha1, _, ha3⟩, _, _, _, _⟩ :=
          expand_spec reg unlockedL pts (cur.tech_id :: visited) cur.tech_id
            (wrap32 (-cur.cost)) reg heap' parent _ rfl
        apply ih
        intro nd hnd
        rw [ha1] at hnd
        rcases List.mem_append.mp hnd with hm | hm
        · exact hheap nd (hsub nd hm)
        · obtain ⟨t, _, hid, hcond⟩ := ha3 nd hm
          intro hT
          have hiu : isUnlockable reg nd.tech_id unlockedL pts = true := by
            rw [hid]
            exact hcond.2.1
          rw [hT, hnu] at hiu
          exact absurd hiu (by simp)

theorem pathLoop_some (reg : Registry) (unlockedL : List Str) (pts : Nat) (target : Str) :
    ∀ (fuel : Nat) (heap : List Node) (parent : List (Str × Str)) (visited : List Str),
      LoopInv reg unlockedL pts heap parent visited →
      loopPotential reg unlockedL heap visited ≤ fuel →
      ¬ target ∈ visited →
      ((∃ nd ∈ heap, nd.tech_id = target) ∨
        (eligNew reg unlockedL pts target ∧ ∃ nd ∈ heap, ¬ nd.tech_id ∈ visited)) →
      ∃ p, pathLoop reg unlockedL pts target fuel heap parent visited = some p ∧
        ¬ target ∈ p ∧
        (target ∈ unlockedL → p = []) ∧
        (¬ target ∈ unlockedL → p ≠ [] ∧ ∃ s, p.head? = some s ∧ s ∈ unlockedL) := by
  intro fuel
  induction fuel with
  | zero =>
    intro heap parent visited _ hpot _ hsrc
    have hheap : heap = [] := by
      unfold loopPotential at hpot
      have : heap.length = 0 := by omega
      exact List.length_eq_zero.mp this
    subst hheap
    rcases hsrc with ⟨nd, hnd, _⟩ | ⟨_, nd, hnd, _⟩ <;> exact absurd hnd (by simp)
  | succ fuel ih =>
    intro heap parent visited hinv hpot htv hsrc
    rw [pathLoop_succ]
    cases hpop : popMin heap with
    | none =>
      have hheap : heap = [] := (popMin_eq_none heap).mp hpop
      subst hheap
      rcases hsrc with ⟨nd, hnd, _⟩ | ⟨_, nd, hnd, _⟩ <;> exact absurd hnd (by simp)
    | some pr =>
      obtain ⟨cur, heap'⟩ := pr
      dsimp only
      have hperm := popMin_perm heap cur heap' hpop
      have hcur : cur ∈ heap := hperm.mem_iff.mpr (List.mem_cons_self cur heap')
      have hsub : ∀ nd ∈ heap', nd ∈ heap :=
        fun nd hnd => hperm.mem_iff.mpr (List.mem_cons_of_mem cur hnd)
      have hlen : heap.length = heap'.length + 1 := by
        rw [hperm.length_eq]
        rfl
      by_cases hv : cur.tech_id ∈ visited
      · rw [if_pos hv]
        apply ih heap' parent visited
        · exact ⟨fun nd hnd => hinv.h1 nd (hsub nd hnd),
            fun nd hnd => hinv.h2 nd (hsub nd hnd), hinv.p1, hinv.p2, hinv.p3,
            hinv.v1, hinv.v2⟩
        · unfold loopPotential at hpot ⊢
          omega
        · exact htv
        · rcases hsrc with ⟨nd, hnd, hid⟩ | ⟨helig, nd, hnd, hndv⟩
          · have hne : ¬ nd = cur := by
              intro he
              rw [he] at hid
              rw [hid] at hv
              exact htv hv
            left
            refine ⟨nd, ?_, hid⟩
            rcases List.mem_cons.mp (hperm.mem_iff.mp hnd) with hm | hm
            · exact absurd hm hne
            · exact hm
          · have hne : ¬ nd = cur := by
              intro he
              rw [he] at hndv
              exact hndv hv
            right
            refine ⟨helig, nd, ?_, hndv⟩
            rcases List.mem_cons.mp (hperm.mem_iff.mp hnd) with hm | hm
            · exact absurd hm hne
            · exact hm
      · rw [if_neg hv]
        by_cases ht : cur.tech_id = target
        · rw [if_pos ht]
          have hndv' : (target :: visited).Nodup := List.nodup_cons.mpr ⟨htv, hinv.v1⟩
          have hp1' : ∀ e ∈ parent, ¬ e.1 ∈ unlockedL := fun e he => (hinv.p1 e he).1
          have hp2' : ∀ k v, k ∈ target :: visited → lookupA parent k = some v →
              ∃ s, (k :: s) <:+ target :: visited ∧ v ∈ s := by
            intro k v hk hlk
            rcases List.mem_cons.mp hk with hm | hm
            · subst hm
              refine ⟨visited, List.suffix_refl _, ?_⟩
              exact (hinv.p1 (k, v) (lookupA_mem parent k v hlk)).2
            · obtain ⟨s, hsuf, hvs⟩ := hinv.p2 k v hm hlk
              exact ⟨s, hsuf.trans (List.suffix_cons target visited), hvs⟩
          have hp3' : ∀ k ∈ target :: visited, ¬ k ∈ unlockedL →
              (lookupA parent k).isSome = true := by
            intro k hk hku
            rcases List.mem_cons.mp hk with hm | hm
            · subst hm
              rcases hinv.h2 cur hcur with hm2 | hm2
              · rw [ht] at hm2
                exact absurd hm2 hku
              · rw [← ht]
                exact hm2
            · exact hinv.p3 k hm hku
          obtain ⟨ps, hb1, hb2, hb3, hb4⟩ :=
            buildPath_spec unlockedL parent (target :: visited) hp1' hndv' hp2' hp3'
              (visited.length + 1) visited target [] (List.suffix_refl _)
              (Nat.le_refl _)
          refine ⟨ps.reverse, ?_, ?_, ?_, ?_⟩
          · rw [hb1]
            simp
          · intro hm
            exact htv (hb2 target (List.mem_reverse.mp hm))
          · intro hu
            rw [hb3 hu]
            rfl
          · intro hu
            obtain ⟨hne, seed, hl, hseedu⟩ := hb4 hu
            refine ⟨by simpa using hne, seed, ?_, hseedu⟩
            rw [List.head?_reverse]
            exact hl
        · rw [if_neg ht]
          obtain ⟨⟨new, ha1, ha2, ha3⟩, hb, hcc, hd, he⟩ :=
            expand_spec reg unlockedL pts (cur.tech_id :: visited) cur.tech_id
              (wrap32 (-cur.cost)) reg heap' parent _ rfl
          have hlook_pres : ∀ k, k ∈ cur.tech_id :: visited →
              lookupA (reg.foldl (expandEntry reg unlockedL pts (cur.tech_id :: visited)
                cur.tech_id (wrap32 (-cur.cost))) (heap', parent)).2 k =
              lookupA parent k := by
            intro k hk
            apply hcc
            intro t _ hct hek
            exact hct.2.2 (by rw [hek]; exact hk)
          apply ih
          · constructor
            · intro nd hnd
              rw [ha1] at hnd
              rcases List.mem_append.mp hnd with hm | hm
              · exact hinv.h1 nd (hsub nd hm)
              · obtain ⟨t, _, hid, hct⟩ := ha3 nd hm
                right
                rw [hid]
                exact ⟨hct.1, hct.2.1⟩
            · intro nd hnd
              rw [ha1] at hnd
              rcases List.mem_append.mp hnd with hm | hm
              · rcases hinv.h2 nd (hsub nd hm) with hm2 | hm2
                · exact Or.inl hm2
                · exact Or.inr (hd nd.tech_id hm2)
              · obtain ⟨t, htm, hid, hct⟩ := ha3 nd hm
                right
                rw [hid]
                exact (he t htm hct).2
            · intro e hee
              rcases hb e hee with hm | ⟨t, _, het, hct⟩
              · obtain ⟨hu, hvv⟩ := hinv.p1 e hm
                exact ⟨hu, List.mem_cons_of_mem _ hvv⟩
              · rw [het]
                exact ⟨hct.1, List.mem_cons_self _ _⟩
            · intro k v hk hlk
              rw [hlook_pres k hk] at hlk
              rcases List.mem_cons.mp hk with hm | hm
              · subst hm
                refine ⟨visited, List.suffix_refl _, ?_⟩
                exact (hinv.p1 (cur.tech_id, v)
                  (lookupA_mem parent cur.tech_id v hlk)).2
              · obtain ⟨s, hsuf, hvs⟩ := hinv.p2 k v hm hlk
                exact ⟨s, hsuf.trans (List.suffix_cons cur.tech_id visited), hvs⟩
            · intro k hk hku
              rcases List.mem_cons.mp hk with hm | hm
              · subst hm
                rcases hinv.h2 cur hcur with hm2 | hm2
                · exact absurd hm2 hku
                · exact hd cur.tech_id hm2
              · exact hd k (hinv.p3 k hm hku)
            · exact List.nodup_cons.mpr ⟨hv, hinv.v1⟩
            · intro k hk
              rcases List.mem_cons.mp hk with hm | hm
              · subst hm
                exact hinv.h1 cur hcur
              · exact hinv.v2 k hm
          · have hstlen : (reg.foldl (expandEntry reg unlockedL pts
                (cur.tech_id :: visited) cur.tech_id (wrap32 (-cur.cost)))
                (heap', parent)).1.length ≤ heap'.length + reg.length := by
              rw [ha1, List.length_append]
              omega
            have hcurU : cur.tech_id ∈ unlockedL ++ regIds reg := by
              rcases hinv.h1 cur hcur with hm | hm
              · exact List.mem_append_left _ hm
              · obtain ⟨t, htm, hid⟩ := isUnlockable_mem reg cur.tech_id unlockedL pts hm.2
                refine List.mem_append_right _ ?_
                unfold regIds
                exact List.mem_map.mpr ⟨t, htm, hid⟩
            have hrem := remaining_cons_lt reg unlockedL visited cur.tech_id hcurU hv
            unfold loopPotential at hpot ⊢
            have hmul : remaining reg unlockedL (cur.tech_id :: visited) * (reg.length + 1)
                + (reg.length + 1) ≤ remaining reg unlockedL visited * (reg.length + 1) := by
              have h1 : remaining reg unlockedL (cur.tech_id :: visited) + 1 ≤
                  remaining reg unlockedL visited := hrem
              have h2 := Nat.mul_le_mul_right (reg.length + 1) h1
              rw [Nat.succ_mul] at h2
              exact h2
            omega
          · intro hm
            rcases List.mem_cons.mp hm with hm2 | hm2
            · exact ht hm2.symm
            · exact htv hm2
          · rcases hsrc with ⟨nd, hnd, hid⟩ | ⟨helig, _, _, _⟩
            · have hne : ¬ nd = cur := by
                intro he'
                rw [he'] at hid
                exact ht hid
              left
              refine ⟨nd, ?_, hid⟩
              rw [ha1]
              apply List.mem_append_left
              rcases List.mem_cons.mp (hperm.mem_iff.mp hnd) with hm | hm
              · exact absurd hm hne
              · exact hm
            · obtain ⟨t, htm, hid⟩ := isUnlockable_mem reg target unlockedL pts helig.2
              have hct : econd reg unlockedL pts (cur.tech_id :: visited) t := by
                refine ⟨?_, ?_, ?_⟩
                · rw [hid]
                  exact helig.1
                · rw [hid]
                  exact helig.2
                · rw [hid]
                  intro hm
                  rcases List.mem_cons.mp hm with hm2 | hm2
                  · exact ht hm2.symm
                  · exact htv hm2
              obtain ⟨⟨nd, hnd, hndid⟩, _⟩ := he t htm hct
              left
              exact ⟨nd, hnd, by rw [hndid, hid]⟩

theorem pathLoop_nil_heap (reg : Registry) (unlockedL : List Str) (pts : Nat)
    (target : Str) (parent : List (Str × Str)) (visited : List Str) :
    ∀ fuel, pathLoop reg unlockedL pts target fuel [] parent visited = none := by
  intro fuel
  cases fuel with
  | zero => rfl
  | succ fuel => rw [pathLoop_succ]; rfl

theorem getTechnologyPath_some (reg : Registry) (target : Str) (unlockedL : List Str)
    (pts : Nat)
    (hcond : target ∈ unlockedL ∨
      (unlockedL ≠ [] ∧ isUnlockable reg target unlockedL pts = true)) :
    ∃ p, getTechnologyPath reg target unlockedL pts = some p ∧
      ¬ target ∈ p ∧
      (target ∈ unlockedL → p = []) ∧
      (¬ target ∈ unlockedL → p ≠ [] ∧ ∃ s, p.head? = some s ∧ s ∈ unlockedL) := by
  unfold getTechnologyPath
  apply pathLoop_some
  · constructor
    · intro nd hnd
      obtain ⟨t, ht, heq⟩ := List.mem_map.mp hnd
      left
      rw [← heq]
      exact ht
    · intro nd hnd
      obtain ⟨t, ht, heq⟩ := List.mem_map.mp hnd
      left
      rw [← heq]
      exact ht
    · intro e he
      exact absurd he (by simp)
    · intro k v _ hlk
      exact absurd hlk (by simp [lookupA])
    · intro k hk
      exact absurd hk (by simp)
    · exact List.nodup_nil
    · intro k hk
      exact absurd hk (by simp)
  · unfold loopPotential
    have hrem := remaining_init_le reg unlockedL
    have hmul : remaining reg unlockedL [] * (reg.length + 1) ≤
        (unlockedL.length + reg.length) * (reg.length + 1) :=
      Nat.mul_le_mul_right (reg.length + 1) hrem
    rw [List.length_map]
    omega
  · exact (by simp : ¬ target ∈ ([] : List Str))
  · by_cases htu : target ∈ unlockedL
    · left
      exact ⟨⟨target, 0⟩, List.mem_map.mpr ⟨target, htu, rfl⟩, rfl⟩
    · rcases hcond with hm | ⟨hne, hiu⟩
      · exact absurd hm htu
      · right
        refine ⟨⟨htu, hiu⟩, ?_⟩
        cases hu : unlockedL with
        | nil => exact absurd hu hne
        | cons x rest =>
          exact ⟨⟨x, 0⟩, List.mem_map.mpr ⟨x, List.mem_cons_self x rest, rfl⟩, by simp⟩

theorem getTechnologyPath_none (reg : Registry) (target : Str) (unlockedL : List Str)
    (pts : Nat)
    (hcond : ¬ (target ∈ unlockedL ∨
      (unlockedL ≠ [] ∧ isUnlockable reg target unlockedL pts = true))) :
    getTechnologyPath reg target unlockedL pts = none := by
  push_neg at hcond
  obtain ⟨htu, hrest⟩ := hcond
  unfold getTechnologyPath
  by_cases hu : unlockedL = []
  · rw [hu]
    exact pathLoop_nil_heap reg [] pts target [] [] _
  · have hiu : isUnlockable reg target unlockedL pts = false := by
      have := hrest hu
      simpa using this
    apply pathLoop_none reg unlockedL pts target hiu
    intro nd hnd
    obtain ⟨t, ht, heq⟩ := List.mem_map.mp hnd
    intro hT
    rw [← heq] at hT
    dsimp only at hT
    rw [hT] at ht
    exact htu ht

/-- C9: `get_technology_path` returns a sequence exactly when the target is
already unlocked, or the unlocked set is non-empty and the target is
eligible under the original snapshot; with an empty unlocked set it always
returns absence, and with an already-unlocked target it returns the empty
sequence. -/
theorem C9_path_existence (reg : Registry) (target : Str) (u : List Str) (pts : Nat) :
    ((∃ p, getTechnologyPath reg target u pts = some p) ↔
      (target ∈ u ∨ (u ≠ [] ∧ isUnlockable reg target u pts = true))) ∧
    (u = [] → getTechnologyPath reg target u pts = none) ∧
    (target ∈ u → getTechnologyPath reg target u pts = some []) := by
  refine ⟨⟨?_, ?_⟩, ?_, ?_⟩
  · intro ⟨p, hp⟩
    by_contra hcond
    rw [getTechnologyPath_none reg target u pts hcond] at hp
    exact absurd hp (by simp)
  · intro hcond
    obtain ⟨p, hp, _⟩ := getTechnologyPath_some reg target u pts hcond
    exact ⟨p, hp⟩
  · intro hu
    apply getTechnologyPath_none
    intro hcond
    rcases hcond with hm | ⟨hne, _⟩
    · rw [hu] at hm
      exact absurd hm (by simp)
    · exact hne hu
  · intro htu
    obtain ⟨p, hp, _, hpe, _⟩ := getTechnologyPath_some reg target u pts (Or.inl htu)
    rw [hp, hpe htu]

/-- Witness for C9: an already-unlocked target yields the empty sequence. -/
theorem C9_path_existence_witness :
    getTechnologyPath pathReg (['p']) [['p']] 0 = some [] := by
  exact (C9_path_existence pathReg (['p']) [['p']] 0).2.2 (by decide)

/-- C3 counterexample: when the target is already unlocked the function
returns the empty sequence, which has no first element, contradicting the
claim that every returned sequence starts with an originally unlocked id. -/
theorem C3_path_counterexample :
    getTechnologyPath [] (['a']) [['a']] 0 = some [] ∧
    ¬ ∃ s, ([] : List Str).head? = some s ∧ s ∈ [[('a' : Char)]] := by
  constructor
  · decide
  · rintro ⟨s, hs, _⟩
    exact absurd hs (by simp)

/-- C3 (amended): `get_technology_path` returns absence exactly when the
target is neither already unlocked nor (with a non-empty unlocked set)
eligible under the fixed initial snapshot; any returned sequence excludes
the target; when the target was already unlocked the sequence is empty; and
otherwise the sequence is non-empty and its first element is one of the
originally unlocked ids (in particular, a target reached directly from a
seed yields the single-element sequence holding that seed). -/
theorem C3_path_contract (reg : Registry) (target : Str) (u : List Str) (pts : Nat) :
    (getTechnologyPath reg target u pts = none ↔
      ¬ (target ∈ u ∨ (u ≠ [] ∧ isUnlockable reg target u pts = true))) ∧
    (∀ p, getTechnologyPath reg target u pts = some p →
      ¬ target ∈ p ∧
      (target ∈ u → p = []) ∧
      (¬ target ∈ u → p ≠ [] ∧ ∃ s, p.head? = some s ∧ s ∈ u)) := by
  constructor
  · constructor
    · intro hnone hcond
      obtain ⟨p, hp, _⟩ := getTechnologyPath_some reg target u pts hcond
      rw [hnone] at hp
      exact absurd hp (by simp)
    · exact getTechnologyPath_none reg target u pts
  · intro p hp
    by_cases hcond : target ∈ u ∨ (u ≠ [] ∧ isUnlockable reg target u pts = true)
    · obtain ⟨p', hp', hprops⟩ := getTechnologyPath_some reg target u pts hcond
      rw [hp] at hp'
      have hpp : p = p' := Option.some.inj hp'
      rw [hpp]
      exact hprops
    · rw [getTechnologyPath_none reg target u pts hcond] at hp
      exact absurd hp (by simp)

/-- Witness for C3 (amended): a target one step beyond the single seed
yields the single-element sequence holding that seed. -/
theorem C3_path_contract_witness :
    ¬ (['w']) ∈ ([[('p' : Char)]] : List Str) ∧
    ∃ s, ([[('p' : Char)]] : List Str).head? = some s ∧ s ∈ [[('p' : Char)]] := by
  have h := (C3_path_contract pathReg (['w']) [['p']] 5).2 [['p']] (by decide)
  exact ⟨(fun hm => h.1 (by simpa using hm)), (h.2.2 (by decide)).2⟩
